import Mathlib

/-!
Verification of the go-exercise repository: a cycle-detection program that
raises the adjacency matrix of a graph to its n-th power through a
channel-based concurrent multiplication pipeline and tests the trace.

The embedding below is a shallow one. Go panics and the error returns of
the matrix package are modelled with Except MErr; Go int is modelled with
Int (no claim here depends on 64-bit wrap-around); the single-worker
channel pipeline of Multiply is modelled by its functional semantics: the
encoder loop produces the ordered list of lockstep pairs sent on the two
input channels, the worker goroutine (computeProducts) maps each pair to a
tagged product, and the assembler loop folds the tagged products into the
zero-initialised result grid.  Loop indices coming from Go range clauses
are naturals.
-/

namespace GoMatrix

/-- The error taxonomy of the matrix package plus the Go runtime
index-out-of-range panic. -/
inductive MErr where
  | dimensionError
  | shapeMismatchError
  | incompatibleDimensionsError
  | invalidPowerError
  | indexOutOfRange
deriving DecidableEq

/-- Element from src/matrix/matrix.go: a value tagged with destination
coordinates, sent over the pipeline channels. -/
structure Element where
  RowIndex : Nat
  ColIndex : Nat
  Value : Int
deriving DecidableEq

/-- Matrix from src/matrix/matrix.go. -/
structure Matrix where
  Rows : Int
  Columns : Int
  Entries : List (List Int)
deriving DecidableEq

instance {e a : Type} [DecidableEq e] [DecidableEq a] : DecidableEq (Except e a) := fun x y =>
  match x, y with
  | .error u, .error v =>
    if h : u = v then .isTrue (by rw [h]) else .isFalse (fun hc => h (by injection hc))
  | .ok u, .ok v =>
    if h : u = v then .isTrue (by rw [h]) else .isFalse (fun hc => h (by injection hc))
  | .error _, .ok _ => .isFalse (fun hc => by injection hc)
  | .ok _, .error _ => .isFalse (fun hc => by injection hc)

/-- NewMatrix from src/matrix/matrix.go lines 23-42.  The optional
variadic entries argument is modelled with Option.  Note the shape check
examines only the outer length and the length of the FIRST inner row
(len(entries[0][0]) in Go is the length of the first row of the grid),
with Go short-circuit evaluation of the disjunction. -/
def NewMatrix (rows : Int) (columns : Int) (entries : Option (List (List Int))) :
    Except MErr Matrix :=
  if rows ≤ 0 ∨ columns ≤ 0 then
    .error .dimensionError
  else
    match entries with
    | none =>
      .ok ⟨rows, columns, List.replicate rows.toNat (List.replicate columns.toNat 0)⟩
    | some e =>
      if (e.length : Int) ≠ rows then .error .shapeMismatchError
      else if ((e.headD []).length : Int) ≠ columns then .error .shapeMismatchError
      else .ok ⟨rows, columns, e⟩

/-- Innermost encoder loop of Multiply (src/matrix/matrix.go lines 100-104):
for the fixed element a = self.Entries[i][j], walk the j-th row of the
second matrix with index k, emitting the lockstep pair
(Element i j a, Element j k b) for each entry b of that row. -/
def encodeInner (i j : Nat) (a : Int) (srow : List Int) (k : Nat) :
    List (Element × Element) :=
  match srow with
  | [] => []
  | b :: rest => (⟨i, j, a⟩, ⟨j, k, b⟩) :: encodeInner i j a rest (k + 1)

/-- Middle encoder loop (line 99): walk row i of self with index j; each
step reads secondMatrix.Entries[j], which panics when j is out of range. -/
def encodeMid (secondMatrix : Matrix) (i : Nat) (row : List Int) (j : Nat) :
    Except MErr (List (Element × Element)) :=
  match row with
  | [] => .ok []
  | a :: rest =>
    match secondMatrix.Entries.get? j with
    | none => .error .indexOutOfRange
    | some srow => do
      let tail ← encodeMid secondMatrix i rest (j + 1)
      .ok (encodeInner i j a srow 0 ++ tail)

/-- Outer encoder loop (line 98): walk the rows of self with index i. -/
def encodeOuter (secondMatrix : Matrix) (rows : List (List Int)) (i : Nat) :
    Except MErr (List (Element × Element)) :=
  match rows with
  | [] => .ok []
  | row :: rest => do
    let head ← encodeMid secondMatrix i row 0
    let tail ← encodeOuter secondMatrix rest (i + 1)
    .ok (head ++ tail)

/-- The ordered sequence of lockstep pairs sent on the two buffered input
channels by the encoder loop of Multiply (lines 98-105). -/
def encodePairs (self secondMatrix : Matrix) : Except MErr (List (Element × Element)) :=
  encodeOuter secondMatrix self.Entries 0

/-- computeProducts from src/matrix/matrix.go lines 122-140: the worker
goroutine pulls one element from each input channel in lockstep and emits
the tagged product Element (x.RowIndex, y.ColIndex, x.Value * y.Value).
Functionally it maps this over the pair sequence. -/
def computeProducts (pairs : List (Element × Element)) : List Element :=
  pairs.map (fun p => ⟨p.1.RowIndex, p.2.ColIndex, p.1.Value * p.2.Value⟩)

/-- One assembler step (line 113):
computedMatrix.Entries[e.RowIndex][e.ColIndex] += e.Value, panicking when
an index is out of range. -/
def updateEntry (g : List (List Int)) (r c : Nat) (v : Int) :
    Except MErr (List (List Int)) :=
  match g.get? r with
  | none => .error .indexOutOfRange
  | some row =>
    match row.get? c with
    | none => .error .indexOutOfRange
    | some old => .ok (g.set r (row.set c (old + v)))

/-- Assembler loop of Multiply (lines 112-114): fold every tagged product
received on the output channel into the result grid. -/
def assemble (g : List (List Int)) (es : List Element) : Except MErr (List (List Int)) :=
  match es with
  | [] => .ok g
  | e :: rest => do
    let g2 ← updateEntry g e.RowIndex e.ColIndex e.Value
    assemble g2 rest

/-- Channel buffer size chosen at src/matrix/matrix.go line 87:
computedMatrix.Rows cubed (and computedMatrix.Rows equals self.Rows). -/
def channelBufferSize (computedMatrix : Matrix) : Int :=
  computedMatrix.Rows * computedMatrix.Rows * computedMatrix.Rows

/-- Multiply from src/matrix/matrix.go lines 69-118. -/
def Multiply (self : Matrix) (secondMatrix : Matrix) : Except MErr Matrix :=
  if self.Rows ≠ secondMatrix.Columns then
    .error .incompatibleDimensionsError
  else do
    let computedMatrix ← NewMatrix self.Rows self.Columns none
    let pairs ← encodePairs self secondMatrix
    let entries ← assemble computedMatrix.Entries (computeProducts pairs)
    .ok { computedMatrix with Entries := entries }

/-- The number of Elements the encoder loop sends to each of the two input
channels (also the number sent on the output channel). -/
def sendCount (self secondMatrix : Matrix) : Except MErr Nat :=
  (encodePairs self secondMatrix).map List.length

/-- The loop of Exponentiate (lines 54-56) unrolled: m iterations of
currentMatrix = initialMatrix.Multiply(currentMatrix) starting from
initialMatrix. -/
def expIter (initialMatrix : Matrix) : Nat → Except MErr Matrix
  | 0 => .ok initialMatrix
  | m + 1 => do
    let currentMatrix ← expIter initialMatrix m
    Multiply initialMatrix currentMatrix

/-- Exponentiate from src/matrix/matrix.go lines 45-59: power - 1
left-multiplications by the original matrix. -/
def Exponentiate (initialMatrix : Matrix) (power : Int) : Except MErr Matrix :=
  if power ≤ 0 then
    .error .invalidPowerError
  else
    expIter initialMatrix (power - 1).toNat

/-- Inner loop of Trace (src/matrix/matrix.go lines 148-153): walk one row
with column index j, accumulating entries where the row index equals j. -/
def traceRow (i j : Nat) (row : List Int) (acc : Int) : Int :=
  match row with
  | [] => acc
  | v :: rest => traceRow i (j + 1) rest (if i = j then acc + v else acc)

/-- Outer loop of Trace: walk the rows with row index i. -/
def traceRows (i : Nat) (rows : List (List Int)) (acc : Int) : Int :=
  match rows with
  | [] => acc
  | row :: rest => traceRows (i + 1) rest (traceRow i 0 row acc)

/-- Trace from src/matrix/matrix.go lines 143-157. -/
def Trace (self : Matrix) : Int :=
  traceRows 0 self.Entries 0

/-- isGraphCyclic from src/main.go lines 45-52. -/
def isGraphCyclic (adjacencyMatrix : Matrix) : Except MErr Bool := do
  let raisedAdjacencyMatrix ← Exponentiate adjacencyMatrix adjacencyMatrix.Rows
  .ok (decide (Trace raisedAdjacencyMatrix ≠ 0))

/-- Row count computed by the loader at src/main.go line 103:
len(matrixElements). -/
def loaderRows (matrixElements : List (List Int)) : Int :=
  matrixElements.length

/-- Column count computed by the loader at src/main.go line 103: the source
assigns len(matrixElements) here as well, not the length of a row. -/
def loaderColumns (matrixElements : List (List Int)) : Int :=
  matrixElements.length

/-- The warning branch condition of src/main.go lines 104-106:
matrixRows != matrixColumns. -/
def loaderWarnsNonSquare (matrixElements : List (List Int)) : Bool :=
  loaderRows matrixElements != loaderColumns matrixElements

/-- The loader's construction call at src/main.go line 108. -/
def loadMatrix (matrixElements : List (List Int)) : Except MErr Matrix :=
  NewMatrix (loaderRows matrixElements) (loaderColumns matrixElements) (some matrixElements)

/-- Entry (i, j) of a matrix, with 0 as the out-of-range default. -/
def entryAt (m : Matrix) (i j : Nat) : Int :=
  (m.Entries.getD i []).getD j 0

/-- Entry (i, k) of a grid, with 0 as the out-of-range default. -/
def entryG (g : List (List Int)) (i k : Nat) : Int :=
  (g.getD i []).getD k 0

/-- The well-formedness invariant of a square n-by-n matrix: the declared
dimensions are both n and the grid is exactly n rows of n entries. -/
def SquareWF (m : Matrix) (n : Nat) : Prop :=
  m.Rows = (n : Int) ∧ m.Columns = (n : Int) ∧ m.Entries.length = n ∧
    ∀ row ∈ m.Entries, row.length = n

instance (m : Matrix) (n : Nat) : Decidable (SquareWF m n) := by
  unfold SquareWF; infer_instance

/-- The sum of the values of the tagged elements destined for output cell
(i, k): the quantity the assembler accumulates there. -/
def tagSum (es : List Element) (i k : Nat) : Int :=
  ((es.filter (fun e => e.RowIndex == i && e.ColIndex == k)).map Element.Value).sum

/-- Modelled from the spec: the serially-computed reference matrix product,
entry (i, k) is the sum over j of A[i][j] * B[j][k]. -/
def refProductEntry (A B : Matrix) (n i k : Nat) : Int :=
  ((List.range n).map (fun j => entryAt A i j * entryAt B j k)).sum

/-- The contribution of one row of the left operand, walked from contraction
index j, to output column k: the recursive form of the dot product the
encoder realises. -/
def rowDotFrom (secondMatrix : Matrix) (row : List Int) (j k : Nat) : Int :=
  match row with
  | [] => 0
  | a :: rest => a * entryAt secondMatrix j k + rowDotFrom secondMatrix rest (j + 1) k

/-- Modelled from the spec: an edge of the directed graph encoded by a 0/1
adjacency matrix. -/
def hasEdge (m : Matrix) (i j : Nat) : Bool :=
  entryAt m i j != 0

/-- Modelled from the spec: existence of a walk of given length between two
vertices of the graph encoded by an adjacency matrix on n vertices. -/
def walkEndsAt (m : Matrix) (n : Nat) : Nat → Nat → Nat → Bool
  | 0, u, v => u == v
  | l + 1, u, v => (List.range n).any (fun w => hasEdge m u w && walkEndsAt m n l w v)

/-- Modelled from the spec: the graph encoded by an adjacency matrix on n
vertices contains a cycle, i.e. some vertex lies on a closed walk of
length between 1 and n. -/
def hasCycleUpTo (m : Matrix) (n : Nat) : Bool :=
  (List.range n).any (fun u => (List.range n).any (fun l => walkEndsAt m n (l + 1) u u))

/-! ### List helper lemmas -/

theorem getD_set_self {α : Type} (l : List α) (i : Nat) (a d : α) (h : i < l.length) :
    (l.set i a).getD i d = a := by
  induction l generalizing i with
  | nil => simp at h
  | cons x xs ih =>
    cases i with
    | zero => rfl
    | succ m => simpa [List.set, List.getD] using (by simpa [List.getD] using ih m (by simpa using h))

theorem getD_set_ne {α : Type} (l : List α) (i j : Nat) (a d : α) (h : i ≠ j) :
    (l.set i a).getD j d = l.getD j d := by
  induction l generalizing i j with
  | nil => simp [List.set]
  | cons x xs ih =>
    cases i with
    | zero =>
      cases j with
      | zero => exact absurd rfl h
      | succ m => simp [List.set, List.getD]
    | succ m =>
      cases j with
      | zero => simp [List.set, List.getD]
      | succ p =>
        have := ih m p (fun hc => h (by rw [hc]))
        simpa [List.set, List.getD] using (by simpa [List.getD] using this)

theorem getD_replicate {α : Type} (n i : Nat) (a d : α) (h : i < n) :
    (List.replicate n a).getD i d = a := by
  induction n generalizing i with
  | zero => omega
  | succ m ih =>
    cases i with
    | zero => rfl
    | succ p =>
      have := ih p (by omega)
      simpa [List.replicate, List.getD] using (by simpa [List.getD] using this)

theorem getD_eq_of_get?_eq {α : Type} (l : List α) (i : Nat) (x d : α)
    (h : l.get? i = some x) : l.getD i d = x := by
  induction l generalizing i with
  | nil => simp at h
  | cons y ys ih =>
    cases i with
    | zero => simp_all [List.getD]
    | succ m =>
      have := ih m (by simpa using h)
      simpa [List.getD] using (by simpa [List.getD] using this)

theorem getD_mem {α : Type} (l : List α) (i : Nat) (d : α) (h : i < l.length) :
    l.getD i d ∈ l := by
  induction l generalizing i with
  | nil => simp at h
  | cons y ys ih =>
    cases i with
    | zero => simp [List.getD]
    | succ m =>
      have := ih m (by simpa using h)
      have h2 : (y :: ys).getD (m + 1) d = ys.getD m d := by simp [List.getD]
      rw [h2]
      exact List.mem_cons_of_mem y this

theorem get?_of_forall_mem {α : Type} (l : List α) (i : Nat) (h : i < l.length) :
    ∃ x, l.get? i = some x ∧ x ∈ l := by
  induction l generalizing i with
  | nil => simp at h
  | cons y ys ih =>
    cases i with
    | zero => exact ⟨y, rfl, List.mem_cons_self y ys⟩
    | succ m =>
      obtain ⟨x, hx, hmem⟩ := ih m (by simpa using h)
      exact ⟨x, by simpa using hx, List.mem_cons_of_mem y hmem⟩

/-! ### tagSum lemmas -/

theorem tagSum_nil (i k : Nat) : tagSum [] i k = 0 := rfl

theorem tagSum_cons (e : Element) (es : List Element) (i k : Nat) :
    tagSum (e :: es) i k =
      (if e.RowIndex = i ∧ e.ColIndex = k then e.Value else 0) + tagSum es i k := by
  by_cases h : e.RowIndex = i ∧ e.ColIndex = k
  · have hb : (e.RowIndex == i && e.ColIndex == k) = true := by
      simp [h.1, h.2]
    simp [tagSum, List.filter_cons, hb, h]
  · have hb : (e.RowIndex == i && e.ColIndex == k) = false := by
      rcases not_and_or.mp h with h1 | h1 <;> simp [h1]
    simp [tagSum, List.filter_cons, hb, h]

theorem tagSum_append (l1 l2 : List Element) (i k : Nat) :
    tagSum (l1 ++ l2) i k = tagSum l1 i k + tagSum l2 i k := by
  simp [tagSum, List.filter_append]

/-! ### Monadic reduction helpers -/

theorem ok_bind {e a b : Type} (x : a) (f : a → Except e b) :
    (Except.ok x >>= f : Except e b) = f x := rfl

theorem getD_ge {α : Type} (l : List α) (i : Nat) (d : α) (h : l.length ≤ i) :
    l.getD i d = d := by
  induction l generalizing i with
  | nil => simp [List.getD]
  | cons y ys ih =>
    cases i with
    | zero => simp at h
    | succ m =>
      have := ih m (by simpa using h)
      simpa [List.getD] using (by simpa [List.getD] using this)

/-! ### Encoder characterisation -/

theorem encodeInner_length (i j : Nat) (a : Int) (srow : List Int) :
    ∀ k0, (encodeInner i j a srow k0).length = srow.length := by
  induction srow with
  | nil => intro k0; rfl
  | cons b rest ih => intro k0; simp [encodeInner, ih (k0 + 1)]

theorem encodeInner_mem (i j : Nat) (a : Int) (srow : List Int) :
    ∀ k0, ∀ e ∈ computeProducts (encodeInner i j a srow k0),
      e.RowIndex = i ∧ e.ColIndex < k0 + srow.length := by
  induction srow with
  | nil => intro k0 e he; simp [encodeInner, computeProducts] at he
  | cons b rest ih =>
    intro k0 e he
    simp only [encodeInner, computeProducts, List.map_cons, List.mem_cons] at he
    rcases he with he | he
    · subst he; constructor
      · rfl
      · simp
    · have := ih (k0 + 1) e (by simpa [computeProducts] using he)
      refine ⟨this.1, ?_⟩
      have := this.2
      simp only [List.length_cons]
      omega

theorem encodeInner_tagSum (i j : Nat) (a : Int) (srow : List Int) :
    ∀ k0 i2 k2,
      tagSum (computeProducts (encodeInner i j a srow k0)) i2 k2 =
        if i2 = i ∧ k0 ≤ k2 ∧ k2 - k0 < srow.length then a * srow.getD (k2 - k0) 0
        else 0 := by
  induction srow with
  | nil =>
    intro k0 i2 k2
    simp [encodeInner, computeProducts, tagSum]
  | cons b rest ih =>
    intro k0 i2 k2
    have hcons : computeProducts (encodeInner i j a (b :: rest) k0) =
        Element.mk i k0 (a * b) :: computeProducts (encodeInner i j a rest (k0 + 1)) := by
      simp [encodeInner, computeProducts]
    rw [hcons, tagSum_cons, ih (k0 + 1) i2 k2]
    by_cases hi : i2 = i
    · subst hi
      rcases Nat.lt_trichotomy k2 k0 with hk | hk | hk
      · have h1 : ¬(k0 = k2) := by omega
        have h2 : ¬(k0 + 1 ≤ k2) := by omega
        have h3 : ¬(k0 ≤ k2) := by omega
        simp [h1, h2, h3]
      · subst hk
        have h2 : ¬(k2 + 1 ≤ k2) := by omega
        simp [h2, Nat.sub_self]
      · have h1 : ¬(k0 = k2) := by omega
        have e1 : k2 - k0 = (k2 - (k0 + 1)) + 1 := by omega
        by_cases h4 : k2 - (k0 + 1) < rest.length
        · have h2 : k0 + 1 ≤ k2 := by omega
          have h3a : k0 ≤ k2 := by omega
          have h3b : k2 - k0 < rest.length + 1 := by omega
          simp [h1, h2, h4, h3a, h3b, e1]
        · have h5 : ¬(k2 - k0 < rest.length + 1) := by omega
          simp [h1, h4, h5]
    · have hi2 : ¬(i = i2) := fun h => hi h.symm
      simp [hi, hi2]

theorem encodeMid_spec (secondMatrix : Matrix) (n : Nat)
    (hB : ∀ j2, j2 < n → ∃ r, secondMatrix.Entries.get? j2 = some r ∧ r.length = n) :
    ∀ (row : List Int) (i j : Nat), j + row.length ≤ n →
      ∃ L, encodeMid secondMatrix i row j = .ok L ∧
        L.length = row.length * n ∧
        (∀ e ∈ computeProducts L, e.RowIndex = i ∧ e.ColIndex < n) ∧
        ∀ i2 k2, k2 < n →
          tagSum (computeProducts L) i2 k2 =
            if i2 = i then rowDotFrom secondMatrix row j k2 else 0 := by
  intro row
  induction row with
  | nil =>
    intro i j hj
    refine ⟨[], rfl, by simp, by simp [computeProducts], ?_⟩
    intro i2 k2 hk2
    simp [computeProducts, tagSum, rowDotFrom]
  | cons a rest ih =>
    intro i j hj
    have hjn : j < n := by simp only [List.length_cons] at hj; omega
    obtain ⟨srow, hs, hslen⟩ := hB j hjn
    have hs2 : secondMatrix.Entries[j]? = some srow := by
      rw [← List.get?_eq_getElem?]; exact hs
    obtain ⟨T, hT, hTlen, hTmem, hTsum⟩ := ih i (j + 1) (by simp only [List.length_cons] at hj; omega)
    refine ⟨encodeInner i j a srow 0 ++ T, ?_, ?_, ?_, ?_⟩
    · simp [encodeMid, hs2, hT, ok_bind]
    · simp only [List.length_append, encodeInner_length, hTlen, hslen, List.length_cons]
      rw [Nat.succ_mul]
      omega
    · intro e he
      simp only [computeProducts, List.map_append, List.mem_append] at he
      rcases he with he | he
      · have h2 := encodeInner_mem i j a srow 0 e (by simpa [computeProducts] using he)
        refine ⟨h2.1, ?_⟩
        have h3 := h2.2
        rw [hslen] at h3
        omega
      · exact hTmem e (by simpa [computeProducts] using he)
    · intro i2 k2 hk2
      have hsplit : computeProducts (encodeInner i j a srow 0 ++ T) =
          computeProducts (encodeInner i j a srow 0) ++ computeProducts T := by
        simp [computeProducts]
      rw [hsplit, tagSum_append, encodeInner_tagSum, hTsum i2 k2 hk2]
      have hget : srow.getD k2 0 = entryAt secondMatrix j k2 := by
        have h6 : secondMatrix.Entries.getD j [] = srow := getD_eq_of_get?_eq _ _ _ _ hs
        unfold entryAt
        rw [h6]
      by_cases hi : i2 = i
      · subst hi
        have c1 : i2 = i2 ∧ 0 ≤ k2 ∧ k2 - 0 < srow.length := ⟨rfl, Nat.zero_le k2, by omega⟩
        rw [if_pos c1, Nat.sub_zero, hget]
        simp [rowDotFrom]
      · simp [hi]

theorem encodeOuter_spec (secondMatrix : Matrix) (n : Nat)
    (hB : ∀ j2, j2 < n → ∃ r, secondMatrix.Entries.get? j2 = some r ∧ r.length = n) :
    ∀ (rows : List (List Int)) (i : Nat), (∀ row ∈ rows, row.length = n) →
      ∃ L, encodeOuter secondMatrix rows i = .ok L ∧
        L.length = rows.length * (n * n) ∧
        (∀ e ∈ computeProducts L,
          i ≤ e.RowIndex ∧ e.RowIndex < i + rows.length ∧ e.ColIndex < n) ∧
        ∀ i2 k2, k2 < n →
          tagSum (computeProducts L) i2 k2 =
            if i ≤ i2 ∧ i2 - i < rows.length then
              rowDotFrom secondMatrix (rows.getD (i2 - i) []) 0 k2
            else 0 := by
  intro rows
  induction rows with
  | nil =>
    intro i hrows
    refine ⟨[], rfl, by simp, by simp [computeProducts], ?_⟩
    intro i2 k2 hk2
    simp [computeProducts, tagSum]
  | cons row rest ih =>
    intro i hrows
    have hrowlen : row.length = n := hrows row (List.mem_cons_self row rest)
    obtain ⟨H, hH, hHlen, hHmem, hHsum⟩ :=
      encodeMid_spec secondMatrix n hB row i 0 (by omega)
    obtain ⟨T, hT, hTlen, hTmem, hTsum⟩ :=
      ih (i + 1) (fun r hr => hrows r (List.mem_cons_of_mem row hr))
    refine ⟨H ++ T, ?_, ?_, ?_, ?_⟩
    · simp [encodeOuter, hH, hT, ok_bind]
    · simp only [List.length_append, hHlen, hTlen, hrowlen, List.length_cons]
      rw [Nat.succ_mul]
      omega
    · intro e he
      simp only [computeProducts, List.map_append, List.mem_append] at he
      rcases he with he | he
      · have := hHmem e (by simpa [computeProducts] using he)
        refine ⟨by omega, ?_, this.2⟩
        simp only [List.length_cons]
        omega
      · have := hTmem e (by simpa [computeProducts] using he)
        refine ⟨by omega, ?_, this.2.2⟩
        simp only [List.length_cons]
        omega
    · intro i2 k2 hk2
      have hsplit : computeProducts (H ++ T) =
          computeProducts H ++ computeProducts T := by
        simp [computeProducts]
      rw [hsplit, tagSum_append, hHsum i2 k2 hk2, hTsum i2 k2 hk2]
      by_cases hi : i2 = i
      · subst hi
        have h2 : ¬(i2 + 1 ≤ i2) := by omega
        have h3 : i2 ≤ i2 ∧ i2 - i2 < rest.length + 1 := ⟨Nat.le_refl i2, by omega⟩
        simp [h2, h3.1, h3.2, Nat.sub_self]
      · have h1 : ¬(i2 = i) := hi
        have e1 : i ≤ i2 → i2 - i = (i2 - (i + 1)) + 1 := by omega
        by_cases h4 : i + 1 ≤ i2 ∧ i2 - (i + 1) < rest.length
        · have h5 : i ≤ i2 ∧ i2 - i < rest.length + 1 := by omega
          simp only [if_pos h4, if_pos h5, if_neg h1, zero_add, e1 h5.1,
            List.getD_cons_succ]
          have c2 : i ≤ i2 ∧ i2 - (i + 1) + 1 < (row :: rest).length := by
            simp only [List.length_cons]; omega
          rw [if_pos c2]
        · have h5 : ¬(i ≤ i2 ∧ i2 - i < rest.length + 1) := by omega
          simp [h1, h4, h5]

/-! ### Assembler characterisation -/

theorem updateEntry_spec (g : List (List Int)) (r c : Nat) (v : Int)
    (hr : r < g.length) (hc : c < (g.getD r []).length) :
    ∃ g2, updateEntry g r c v = .ok g2 ∧ g2.length = g.length ∧
      (∀ i, (g2.getD i []).length = (g.getD i []).length) ∧
      entryG g2 r c = entryG g r c + v ∧
      ∀ i k, ¬(i = r ∧ k = c) → entryG g2 i k = entryG g i k := by
  obtain ⟨row, hrow, -⟩ := get?_of_forall_mem g r hr
  have hrowD : g.getD r [] = row := getD_eq_of_get?_eq _ _ _ _ hrow
  rw [hrowD] at hc
  obtain ⟨old, hold, -⟩ := get?_of_forall_mem row c hc
  have holdD : row.getD c 0 = old := getD_eq_of_get?_eq _ _ _ _ hold
  have hrow2 : g[r]? = some row := by rw [← List.get?_eq_getElem?]; exact hrow
  have hold2 : row[c]? = some old := by rw [← List.get?_eq_getElem?]; exact hold
  refine ⟨g.set r (row.set c (old + v)), ?_, ?_, ?_, ?_, ?_⟩
  · simp [updateEntry, hrow2, hold2]
  · simp
  · intro i
    by_cases hi : i = r
    · rw [hi, getD_set_self g r (row.set c (old + v)) [] hr, hrowD, List.length_set]
    · rw [getD_set_ne g r i (row.set c (old + v)) [] (fun h => hi h.symm)]
  · unfold entryG
    rw [getD_set_self g r (row.set c (old + v)) [] hr,
      getD_set_self row c (old + v) 0 hc, hrowD, holdD]
  · intro i k hik
    unfold entryG
    by_cases hi : i = r
    · have hk : ¬(k = c) := fun h => hik ⟨hi, h⟩
      rw [hi, getD_set_self g r (row.set c (old + v)) [] hr,
        getD_set_ne row c k (old + v) 0 (fun h => hk h.symm), hrowD]
    · rw [getD_set_ne g r i (row.set c (old + v)) [] (fun h => hi h.symm)]

theorem assemble_spec : ∀ (es : List Element) (g : List (List Int)),
    (∀ e ∈ es, e.RowIndex < g.length ∧ e.ColIndex < (g.getD e.RowIndex []).length) →
    ∃ g2, assemble g es = .ok g2 ∧ g2.length = g.length ∧
      (∀ i, (g2.getD i []).length = (g.getD i []).length) ∧
      ∀ i k, entryG g2 i k = entryG g i k + tagSum es i k := by
  intro es
  induction es with
  | nil =>
    intro g hbound
    exact ⟨g, rfl, rfl, fun i => rfl, fun i k => by simp [tagSum_nil]⟩
  | cons e rest ih =>
    intro g hbound
    obtain ⟨he1, he2⟩ := hbound e (List.mem_cons_self e rest)
    obtain ⟨g1, hupd, hlen1, hrows1, hent1, hother1⟩ :=
      updateEntry_spec g e.RowIndex e.ColIndex e.Value he1 he2
    obtain ⟨g2, hasm, hlen2, hrows2, hent2⟩ := ih g1 (fun e2 hm =>
      ⟨by rw [hlen1]; exact (hbound e2 (List.mem_cons_of_mem e hm)).1,
       by rw [hrows1]; exact (hbound e2 (List.mem_cons_of_mem e hm)).2⟩)
    refine ⟨g2, ?_, by rw [hlen2, hlen1], fun i => by rw [hrows2 i, hrows1 i], ?_⟩
    · simp [assemble, hupd, ok_bind, hasm]
    · intro i k
      rw [hent2 i k, tagSum_cons]
      by_cases hik : e.RowIndex = i ∧ e.ColIndex = k
      · obtain ⟨h1, h2⟩ := hik
        subst h1
        subst h2
        rw [hent1, if_pos ⟨rfl, rfl⟩]
        ring
      · rw [hother1 i k (fun hc => hik ⟨hc.1.symm, hc.2.symm⟩), if_neg hik]
        ring

theorem entryG_zero (n i k : Nat) :
    entryG (List.replicate n (List.replicate n (0 : Int))) i k = 0 := by
  unfold entryG
  by_cases hi : i < n
  · rw [getD_replicate n i (List.replicate n (0 : Int)) [] hi]
    by_cases hk : k < n
    · rw [getD_replicate n k (0 : Int) 0 hk]
    · have hge : (List.replicate n (0 : Int)).length ≤ k := by
        simp only [List.length_replicate]; omega
      rw [getD_ge (List.replicate n (0 : Int)) k 0 hge]
  · have hge : (List.replicate n (List.replicate n (0 : Int))).length ≤ i := by
      simp only [List.length_replicate]; omega
    rw [getD_ge (List.replicate n (List.replicate n (0 : Int))) i [] hge]
    simp [List.getD]

theorem rowDotFrom_eq_sum (B : Matrix) :
    ∀ (row : List Int) (j k : Nat),
      rowDotFrom B row j k =
        ((List.range row.length).map (fun t => row.getD t 0 * entryAt B (j + t) k)).sum := by
  intro row
  induction row with
  | nil => intro j k; simp [rowDotFrom]
  | cons a rest ih =>
    intro j k
    rw [show (a :: rest).length = rest.length + 1 from rfl, List.range_succ_eq_map,
      List.map_cons, List.sum_cons, List.map_map]
    have hmap : (List.range rest.length).map
        ((fun t => (a :: rest).getD t 0 * entryAt B (j + t) k) ∘ Nat.succ) =
        (List.range rest.length).map (fun t => rest.getD t 0 * entryAt B ((j + 1) + t) k) := by
      apply List.map_congr_left
      intro t ht
      simp only [Function.comp, List.getD_cons_succ]
      rw [show j + Nat.succ t = (j + 1) + t from by omega]
    rw [hmap, ← ih (j + 1) k]
    simp [rowDotFrom, List.getD]

theorem forall_mem_of_pointwise {α : Type} (l : List α) (d : α) (P : α → Prop)
    (h : ∀ i, i < l.length → P (l.getD i d)) : ∀ x ∈ l, P x := by
  intro x hx
  obtain ⟨⟨i, hi⟩, hget⟩ := List.mem_iff_get.mp hx
  have h2 : l.get? i = some x := by rw [List.get?_eq_get hi, hget]
  have h3 : l.getD i d = x := getD_eq_of_get?_eq _ _ _ _ h2
  rw [← h3]
  exact h i hi

theorem squareWF_rowAccess (B : Matrix) (n : Nat) (hB : SquareWF B n) :
    ∀ j2, j2 < n → ∃ r, B.Entries.get? j2 = some r ∧ r.length = n := by
  intro j2 hj2
  obtain ⟨-, -, hlen, hrows⟩ := hB
  obtain ⟨r, hr, hmem⟩ := get?_of_forall_mem B.Entries j2 (by rw [hlen]; exact hj2)
  exact ⟨r, hr, hrows r hmem⟩

/-- The master functional-correctness lemma for the pipeline: for square
well-formed operands Multiply succeeds, the encoder sends exactly n cubed
lockstep pairs, and every entry of the assembled result is the reference
serial dot product. -/
theorem Multiply_spec (n : Nat) (A B : Matrix) (hn : 0 < n)
    (hA : SquareWF A n) (hB : SquareWF B n) :
    ∃ C, Multiply A B = .ok C ∧ SquareWF C n ∧
      (∃ L, encodePairs A B = .ok L ∧ L.length = n * n * n) ∧
      ∀ i k, i < n → k < n → entryAt C i k = refProductEntry A B n i k := by
  obtain ⟨hAr, hAc, hAlen, hArows⟩ := hA
  obtain ⟨hBr, hBc, hBlen, hBrows⟩ := hB
  have hcheck : ¬(A.Rows ≠ B.Columns) := by rw [hAr, hBc]; simp
  have hpos : ¬(A.Rows ≤ 0 ∨ A.Columns ≤ 0) := by rw [hAr, hAc]; omega
  have h1 : A.Rows.toNat = n := by rw [hAr]; omega
  have h2 : A.Columns.toNat = n := by rw [hAc]; omega
  have hNM : NewMatrix A.Rows A.Columns none =
      .ok ⟨A.Rows, A.Columns, List.replicate n (List.replicate n 0)⟩ := by
    simp only [NewMatrix, if_neg hpos, h1, h2]
  obtain ⟨L, hL, hLlen, hLmem, hLsum⟩ :=
    encodeOuter_spec B n (squareWF_rowAccess B n ⟨hBr, hBc, hBlen, hBrows⟩)
      A.Entries 0 hArows
  have hL2 : encodePairs A B = .ok L := hL
  have hLlen2 : L.length = n * n * n := by rw [hLlen, hAlen]; ring
  have hbound : ∀ e ∈ computeProducts L,
      e.RowIndex < (List.replicate n (List.replicate n (0 : Int))).length ∧
      e.ColIndex < ((List.replicate n (List.replicate n (0 : Int))).getD e.RowIndex []).length := by
    intro e he
    obtain ⟨-, hlt, hcol⟩ := hLmem e he
    rw [hAlen] at hlt
    have hlt2 : e.RowIndex < n := by omega
    constructor
    · simpa using hlt2
    · rw [getD_replicate n e.RowIndex (List.replicate n (0 : Int)) [] hlt2]
      simpa using hcol
  obtain ⟨G, hG, hGlen, hGrows, hGent⟩ :=
    assemble_spec (computeProducts L) (List.replicate n (List.replicate n 0)) hbound
  refine ⟨⟨A.Rows, A.Columns, G⟩, ?_, ?_, ⟨L, hL2, hLlen2⟩, ?_⟩
  · simp only [Multiply, if_neg hcheck, hNM, ok_bind, hL2, hG]
  · refine ⟨hAr, hAc, by rw [hGlen]; simp, ?_⟩
    refine forall_mem_of_pointwise G [] (fun row => row.length = n) ?_
    intro i hi
    rw [hGrows i]
    rw [hGlen] at hi
    simp only [List.length_replicate] at hi
    rw [getD_replicate n i (List.replicate n (0 : Int)) [] hi]
    simp
  · intro i k hi hk
    have hent : entryAt ⟨A.Rows, A.Columns, G⟩ i k = entryG G i k := rfl
    rw [hent, hGent i k, entryG_zero, hLsum i k hk]
    have hcond : 0 ≤ i ∧ i - 0 < A.Entries.length := ⟨Nat.zero_le i, by rw [hAlen]; omega⟩
    rw [if_pos hcond, zero_add, Nat.sub_zero, rowDotFrom_eq_sum]
    have hrl : (A.Entries.getD i []).length = n :=
      hArows _ (getD_mem A.Entries i [] (by rw [hAlen]; exact hi))
    rw [hrl]
    simp only [refProductEntry, entryAt, Nat.zero_add]

theorem error_bind {e a b : Type} (x : e) (f : a → Except e b) :
    (Except.error x >>= f : Except e b) = Except.error x := rfl

theorem map_ok {e a b : Type} (f : a → b) (x : a) :
    (Except.map f (Except.ok x) : Except e b) = Except.ok (f x) := rfl

/-! ### Exponentiation -/

theorem expIter_spec (n : Nat) (A : Matrix) (hn : 0 < n) (hA : SquareWF A n) :
    ∀ m, ∃ C, expIter A m = .ok C ∧ SquareWF C n := by
  intro m
  induction m with
  | zero => exact ⟨A, rfl, hA⟩
  | succ p ih =>
    obtain ⟨C, hC, hCwf⟩ := ih
    obtain ⟨D, hD, hDwf, -, -⟩ := Multiply_spec n A C hn hA hCwf
    exact ⟨D, by simp [expIter, hC, ok_bind, hD], hDwf⟩

theorem Exponentiate_spec (n : Nat) (A : Matrix) (p : Int) (hn : 0 < n)
    (hA : SquareWF A n) (hp : 1 ≤ p) :
    ∃ C, Exponentiate A p = .ok C ∧ SquareWF C n := by
  have hnot : ¬(p ≤ 0) := by omega
  obtain ⟨C, hC, hCwf⟩ := expIter_spec n A hn hA (p - 1).toNat
  exact ⟨C, by rw [Exponentiate, if_neg hnot]; exact hC, hCwf⟩

/-! ### Error-kind analysis -/

theorem NewMatrix_error_kind (rows columns : Int) (entries : Option (List (List Int)))
    (e : MErr) (h : NewMatrix rows columns entries = .error e) :
    e = .dimensionError ∨ e = .shapeMismatchError := by
  unfold NewMatrix at h
  split at h
  · injection h with h2; exact Or.inl h2.symm
  · split at h
    · simp at h
    · split at h
      · injection h with h2; exact Or.inr h2.symm
      · split at h
        · injection h with h2; exact Or.inr h2.symm
        · simp at h

theorem NewMatrix_none_ok (rows columns : Int) (Z : Matrix)
    (h : NewMatrix rows columns none = .ok Z) :
    0 < rows ∧ 0 < columns ∧
      Z = ⟨rows, columns, List.replicate rows.toNat (List.replicate columns.toNat 0)⟩ := by
  unfold NewMatrix at h
  split at h
  · simp at h
  · rename_i hcond
    injection h with h2
    push_neg at hcond
    exact ⟨hcond.1, hcond.2, h2.symm⟩

theorem encodeMid_error_kind (secondMatrix : Matrix) :
    ∀ (row : List Int) (i j : Nat) (e : MErr),
      encodeMid secondMatrix i row j = .error e → e = .indexOutOfRange := by
  intro row
  induction row with
  | nil => intro i j e h; simp [encodeMid] at h
  | cons a rest ih =>
    intro i j e h
    unfold encodeMid at h
    split at h
    · injection h with h2; exact h2.symm
    · rename_i srow hsrow
      cases hrec : encodeMid secondMatrix i rest (j + 1) with
      | error e2 =>
        rw [hrec, error_bind] at h
        injection h with h4
        exact h4 ▸ ih i (j + 1) e2 hrec
      | ok T =>
        rw [hrec, ok_bind] at h
        simp at h

theorem encodeOuter_error_kind (secondMatrix : Matrix) :
    ∀ (rows : List (List Int)) (i : Nat) (e : MErr),
      encodeOuter secondMatrix rows i = .error e → e = .indexOutOfRange := by
  intro rows
  induction rows with
  | nil => intro i e h; simp [encodeOuter] at h
  | cons row rest ih =>
    intro i e h
    unfold encodeOuter at h
    cases hH : encodeMid secondMatrix i row 0 with
    | error e2 =>
      rw [hH, error_bind] at h
      injection h with h4
      exact h4 ▸ encodeMid_error_kind secondMatrix row i 0 e2 hH
    | ok H =>
      rw [hH, ok_bind] at h
      cases hT : encodeOuter secondMatrix rest (i + 1) with
      | error e3 =>
        rw [hT, error_bind] at h
        injection h with h4
        exact h4 ▸ ih (i + 1) e3 hT
      | ok T =>
        rw [hT, ok_bind] at h
        simp at h

theorem updateEntry_error_kind (g : List (List Int)) (r c : Nat) (v : Int) (e : MErr)
    (h : updateEntry g r c v = .error e) : e = .indexOutOfRange := by
  unfold updateEntry at h
  split at h
  · injection h with h2; exact h2.symm
  · split at h
    · injection h with h2; exact h2.symm
    · simp at h

theorem assemble_error_kind : ∀ (es : List Element) (g : List (List Int)) (e : MErr),
    assemble g es = .error e → e = .indexOutOfRange := by
  intro es
  induction es with
  | nil => intro g e h; simp [assemble] at h
  | cons el rest ih =>
    intro g e h
    unfold assemble at h
    cases hu : updateEntry g el.RowIndex el.ColIndex el.Value with
    | error e2 =>
      rw [hu, error_bind] at h
      injection h with h4
      exact h4 ▸ updateEntry_error_kind g el.RowIndex el.ColIndex el.Value e2 hu
    | ok g1 =>
      rw [hu, ok_bind] at h
      exact ih g1 e h

theorem updateEntry_shape (g : List (List Int)) (r c : Nat) (v : Int)
    (g1 : List (List Int)) (h : updateEntry g r c v = .ok g1) :
    g1.length = g.length ∧ ∀ i, (g1.getD i []).length = (g.getD i []).length := by
  unfold updateEntry at h
  split at h
  · simp at h
  · rename_i row hrow
    split at h
    · simp at h
    · rename_i old hold
      injection h with h2
      subst h2
      have hg : g.get? r = some row := hrow
      have hrl : r < g.length := by
        rcases List.get?_eq_some.mp hg with ⟨h5, -⟩; exact h5
      have hD : g.getD r [] = row := getD_eq_of_get?_eq _ _ _ _ hg
      constructor
      · simp
      · intro i
        by_cases hi : i = r
        · rw [hi, getD_set_self g r (row.set c (old + v)) [] hrl, hD, List.length_set]
        · rw [getD_set_ne g r i (row.set c (old + v)) [] (fun hh => hi hh.symm)]

theorem assemble_shape : ∀ (es : List Element) (g g2 : List (List Int)),
    assemble g es = .ok g2 →
    g2.length = g.length ∧ ∀ i, (g2.getD i []).length = (g.getD i []).length := by
  intro es
  induction es with
  | nil =>
    intro g g2 h
    injection h with h2
    subst h2
    exact ⟨rfl, fun i => rfl⟩
  | cons el rest ih =>
    intro g g2 h
    unfold assemble at h
    cases hu : updateEntry g el.RowIndex el.ColIndex el.Value with
    | error e2 => rw [hu, error_bind] at h; simp at h
    | ok g1 =>
      rw [hu, ok_bind] at h
      have hsh := updateEntry_shape g el.RowIndex el.ColIndex el.Value g1 hu
      have hih := ih g1 g2 h
      exact ⟨hih.1.trans hsh.1, fun i => (hih.2 i).trans (hsh.2 i)⟩

/-! ### Claim theorems -/

/-- Claim C1: for every pair of square n-by-n integer matrices, Multiply
returns a matrix whose every entry (i, k) is the serially-computed
reference sum over j of A[i][j] * B[j][k].  The single-worker channel
pipeline is modelled by its functional semantics, so the result is by
construction the same on every run. -/
theorem C1_multiply_refines_reference (n : Nat) (A B : Matrix)
    (hn : 0 < n) (hA : SquareWF A n) (hB : SquareWF B n) :
    ∃ C, Multiply A B = .ok C ∧ SquareWF C n ∧
      ∀ i k, i < n → k < n → entryAt C i k = refProductEntry A B n i k := by
  obtain ⟨C, h1, h2, -, h4⟩ := Multiply_spec n A B hn hA hB
  exact ⟨C, h1, h2, h4⟩

/-- Witness for C1 at the concrete 2-by-2 operands [[1,2],[3,4]] and
[[5,6],[7,8]]. -/
theorem C1_witness :
    ∃ C, Multiply ⟨2, 2, [[1, 2], [3, 4]]⟩ ⟨2, 2, [[5, 6], [7, 8]]⟩ = .ok C ∧
      SquareWF C 2 ∧ ∀ i k, i < 2 → k < 2 →
        entryAt C i k =
          refProductEntry ⟨2, 2, [[1, 2], [3, 4]]⟩ ⟨2, 2, [[5, 6], [7, 8]]⟩ 2 i k :=
  C1_multiply_refines_reference 2 ⟨2, 2, [[1, 2], [3, 4]]⟩ ⟨2, 2, [[5, 6], [7, 8]]⟩
    (by decide) (by decide) (by decide)

/-- Claim C2: for square n-by-n operands the encoder sends n cubed elements
to each input channel, which is exactly the chosen buffer size, so no send
ever exceeds the buffer capacity; the whole pipeline, modelled
functionally, runs to completion with a result. -/
theorem C2_buffer_capacity_no_deadlock (n : Nat) (A B : Matrix)
    (hn : 0 < n) (hA : SquareWF A n) (hB : SquareWF B n) :
    ∃ L C, encodePairs A B = .ok L ∧ Multiply A B = .ok C ∧
      sendCount A B = .ok L.length ∧ (L.length : Int) ≤ channelBufferSize C := by
  obtain ⟨C, h1, hwf, ⟨L, hL, hLlen⟩, -⟩ := Multiply_spec n A B hn hA hB
  refine ⟨L, C, hL, h1, ?_, ?_⟩
  · simp [sendCount, hL, map_ok]
  · have hbs : channelBufferSize C = (n : Int) * (n : Int) * (n : Int) := by
      unfold channelBufferSize
      rw [hwf.1]
    rw [hLlen, hbs]
    exact le_of_eq (by push_cast; ring)

/-- Witness for C2 at concrete 2-by-2 operands. -/
theorem C2_witness :
    ∃ L C, encodePairs ⟨2, 2, [[1, 0], [0, 1]]⟩ ⟨2, 2, [[3, 4], [5, 6]]⟩ = .ok L ∧
      Multiply ⟨2, 2, [[1, 0], [0, 1]]⟩ ⟨2, 2, [[3, 4], [5, 6]]⟩ = .ok C ∧
      sendCount ⟨2, 2, [[1, 0], [0, 1]]⟩ ⟨2, 2, [[3, 4], [5, 6]]⟩ = .ok L.length ∧
      (L.length : Int) ≤ channelBufferSize C :=
  C2_buffer_capacity_no_deadlock 2 ⟨2, 2, [[1, 0], [0, 1]]⟩ ⟨2, 2, [[3, 4], [5, 6]]⟩
    (by decide) (by decide) (by decide)

/-- Claim C3 is refuted by the code: the 0/1 adjacency matrix
[[0,1,0],[1,0,0],[0,0,0]] encodes the directed cycle 0 -> 1 -> 0 (a closed
walk of length 2, within the bound 3), yet isGraphCyclic answers false,
because the cube of the matrix has zero trace: no closed walk has length
exactly 3 in this bipartite component. -/
theorem C3_codebug_two_cycle_missed :
    hasCycleUpTo ⟨3, 3, [[0, 1, 0], [1, 0, 0], [0, 0, 0]]⟩ 3 = true ∧
    isGraphCyclic ⟨3, 3, [[0, 1, 0], [1, 0, 0], [0, 0, 0]]⟩ = .ok false := by
  constructor
  · decide
  · decide

/-- Claim C4: for every square matrix, isGraphCyclic returns exactly the
test that the trace of the Rows-th power is nonzero. -/
theorem C4_isGraphCyclic_eq_trace_test (n : Nat) (A : Matrix)
    (hn : 0 < n) (hA : SquareWF A n) :
    ∃ P, Exponentiate A A.Rows = .ok P ∧
      isGraphCyclic A = .ok (decide (Trace P ≠ 0)) := by
  obtain ⟨P, hP, -⟩ := Exponentiate_spec n A A.Rows hn hA (by rw [hA.1]; omega)
  exact ⟨P, hP, by simp [isGraphCyclic, hP, ok_bind]⟩

/-- Witness for C4 at the 2-by-2 permutation matrix. -/
theorem C4_witness :
    ∃ P, Exponentiate ⟨2, 2, [[0, 1], [1, 0]]⟩ (⟨2, 2, [[0, 1], [1, 0]]⟩ : Matrix).Rows = .ok P ∧
      isGraphCyclic ⟨2, 2, [[0, 1], [1, 0]]⟩ = .ok (decide (Trace P ≠ 0)) :=
  C4_isGraphCyclic_eq_trace_test 2 ⟨2, 2, [[0, 1], [1, 0]]⟩ (by decide) (by decide)

/-- Claim C5: Exponentiate at power 1 returns the receiver unchanged, and
for k at least 1 the power k+1 is one further left-multiplication by the
original matrix applied to the power k — the loop performs power - 1 such
multiplications, not repeated squaring. -/
theorem C5_exponentiate_recurrence (A : Matrix) (k : Int) (hk : 1 ≤ k) :
    Exponentiate A 1 = .ok A ∧
    Exponentiate A (k + 1) = (Exponentiate A k).bind (Multiply A) := by
  constructor
  · rw [Exponentiate, if_neg (by omega : ¬((1 : Int) ≤ 0))]
    rfl
  · have h1 : ¬((k + 1 : Int) ≤ 0) := by omega
    have h2 : ¬(k ≤ 0) := by omega
    have h3 : (k + 1 - 1).toNat = (k - 1).toNat + 1 := by omega
    unfold Exponentiate
    rw [if_neg h1, if_neg h2, h3]
    rfl

/-- Witness for C5 at the 1-by-1 matrix [[2]] and k = 1. -/
theorem C5_witness :
    Exponentiate ⟨1, 1, [[2]]⟩ 1 = .ok ⟨1, 1, [[2]]⟩ ∧
    Exponentiate ⟨1, 1, [[2]]⟩ (1 + 1) =
      (Exponentiate ⟨1, 1, [[2]]⟩ 1).bind (Multiply ⟨1, 1, [[2]]⟩) :=
  C5_exponentiate_recurrence ⟨1, 1, [[2]]⟩ 1 (by decide)

/-- Claim C6: Multiply fails with IncompatibleDimensionsError exactly when
self.Rows differs from secondMatrix.Columns (the unconventional check the
code performs), and on success the result has shape
self.Rows by self.Columns, both in its declared fields and in its grid. -/
theorem C6_multiply_error_contract (self secondMatrix : Matrix) :
    (Multiply self secondMatrix = .error .incompatibleDimensionsError ↔
      self.Rows ≠ secondMatrix.Columns) ∧
    ∀ C, Multiply self secondMatrix = .ok C →
      C.Rows = self.Rows ∧ C.Columns = self.Columns ∧
      C.Entries.length = self.Rows.toNat ∧
      ∀ row ∈ C.Entries, row.length = self.Columns.toNat := by
  by_cases hc : self.Rows ≠ secondMatrix.Columns
  · refine ⟨⟨fun _ => hc, fun _ => by simp [Multiply, hc]⟩, ?_⟩
    intro C hC
    simp [Multiply, hc] at hC
  · constructor
    · refine ⟨?_, fun hne => absurd hne hc⟩
      intro h
      exfalso
      unfold Multiply at h
      rw [if_neg hc] at h
      cases hNM : NewMatrix self.Rows self.Columns none with
      | error e2 =>
        rw [hNM, error_bind] at h
        injection h with h4
        rcases NewMatrix_error_kind self.Rows self.Columns none e2 hNM with h5 | h5 <;>
          (rw [h5] at h4; exact MErr.noConfusion h4)
      | ok Z =>
        rw [hNM, ok_bind] at h
        cases hEP : encodePairs self secondMatrix with
        | error e2 =>
          rw [hEP, error_bind] at h
          injection h with h4
          have h5 : e2 = .indexOutOfRange :=
            encodeOuter_error_kind secondMatrix self.Entries 0 e2 hEP
          rw [h5] at h4
          exact MErr.noConfusion h4
        | ok L =>
          rw [hEP, ok_bind] at h
          cases hAS : assemble Z.Entries (computeProducts L) with
          | error e2 =>
            rw [hAS, error_bind] at h
            injection h with h4
            have h5 := assemble_error_kind (computeProducts L) Z.Entries e2 hAS
            rw [h5] at h4
            exact MErr.noConfusion h4
          | ok G =>
            rw [hAS, ok_bind] at h
            simp at h
    · intro C hC
      unfold Multiply at hC
      rw [if_neg hc] at hC
      cases hNM : NewMatrix self.Rows self.Columns none with
      | error e2 => rw [hNM, error_bind] at hC; simp at hC
      | ok Z =>
        rw [hNM, ok_bind] at hC
        obtain ⟨hr, hcol, hZ⟩ := NewMatrix_none_ok self.Rows self.Columns Z hNM
        cases hEP : encodePairs self secondMatrix with
        | error e2 => rw [hEP, error_bind] at hC; simp at hC
        | ok L =>
          rw [hEP, ok_bind] at hC
          cases hAS : assemble Z.Entries (computeProducts L) with
          | error e2 => rw [hAS, error_bind] at hC; simp at hC
          | ok G =>
            rw [hAS, ok_bind] at hC
            injection hC with h4
            subst h4
            have hsh := assemble_shape (computeProducts L) Z.Entries G hAS
            subst hZ
            refine ⟨rfl, rfl, ?_, ?_⟩
            · rw [hsh.1]
              simp
            · refine forall_mem_of_pointwise G []
                (fun row => row.length = self.Columns.toNat) ?_
              intro i hi
              rw [hsh.2 i]
              rw [hsh.1] at hi
              simp only [List.length_replicate] at hi
              rw [getD_replicate self.Rows.toNat i
                (List.replicate self.Columns.toNat (0 : Int)) [] hi]
              simp

/-- Witness for C6: a mismatched pair is rejected with the incompatible
dimensions error, and a successful square product has the declared shape. -/
theorem C6_witness :
    Multiply ⟨2, 2, [[1, 2], [3, 4]]⟩ ⟨3, 3, [[1, 2, 3], [4, 5, 6], [7, 8, 9]]⟩ =
      .error .incompatibleDimensionsError :=
  (C6_multiply_error_contract ⟨2, 2, [[1, 2], [3, 4]]⟩
    ⟨3, 3, [[1, 2, 3], [4, 5, 6], [7, 8, 9]]⟩).1.mpr (by decide)

/-- Claim C7 as stated is false: NewMatrix checks only the FIRST inner
row's length against columns, so a ragged grid whose later rows have the
wrong length is accepted.  Here rows = 2, columns = 2 and the second inner
row [3] has length 1, yet no ShapeMismatchError is raised. -/
theorem C7_counterexample :
    NewMatrix 2 2 (some [[1, 2], [3]]) = .ok ⟨2, 2, [[1, 2], [3]]⟩ ∧
    ¬ (∀ row ∈ ([[1, 2], [3]] : List (List Int)), row.length = 2) := by
  constructor
  · decide
  · decide

/-- Claim C7 (amended): NewMatrix returns DimensionError whenever rows or
columns is non-positive; with entries supplied it returns
ShapeMismatchError exactly when the outer length differs from rows or the
FIRST inner row's length differs from columns (later rows are not
checked); without entries it returns the zero-filled rows-by-columns
matrix. -/
theorem C7_newMatrix_contract (rows columns : Int) (entries : Option (List (List Int))) :
    ((rows ≤ 0 ∨ columns ≤ 0) → NewMatrix rows columns entries = .error .dimensionError) ∧
    (0 < rows → 0 < columns →
      (∀ e, entries = some e →
        (NewMatrix rows columns entries = .error .shapeMismatchError ↔
          ((e.length : Int) ≠ rows ∨ ((e.headD []).length : Int) ≠ columns))) ∧
      (entries = none →
        NewMatrix rows columns entries =
          .ok ⟨rows, columns,
            List.replicate rows.toNat (List.replicate columns.toNat 0)⟩)) := by
  constructor
  · intro h
    unfold NewMatrix
    rw [if_pos h]
  · intro hr hcpos
    have hneg : ¬(rows ≤ 0 ∨ columns ≤ 0) := by omega
    constructor
    · intro e he
      subst he
      simp only [NewMatrix, if_neg hneg]
      by_cases h1 : (e.length : Int) ≠ rows
      · rw [if_pos h1]
        exact iff_of_true rfl (Or.inl h1)
      · rw [if_neg h1]
        by_cases h2 : ((e.headD []).length : Int) ≠ columns
        · rw [if_pos h2]
          exact iff_of_true rfl (Or.inr h2)
        · rw [if_neg h2]
          exact iff_of_false (by simp) (by rw [not_or]; exact ⟨h1, h2⟩)
    · intro he
      subst he
      simp only [NewMatrix, if_neg hneg]

/-- Witness for the amended C7: the dimension error, a shape mismatch on
the outer length, and a zero-filled construction. -/
theorem C7_witness :
    NewMatrix 0 5 none = .error .dimensionError ∧
    NewMatrix 2 2 (some [[1, 2], [3, 4], [5, 6]]) = .error .shapeMismatchError ∧
    NewMatrix 2 3 none =
      .ok ⟨2, 3, List.replicate (2 : Int).toNat (List.replicate (3 : Int).toNat 0)⟩ := by
  refine ⟨(C7_newMatrix_contract 0 5 none).1 (by decide), ?_, ?_⟩
  · exact (((C7_newMatrix_contract 2 2 (some [[1, 2], [3, 4], [5, 6]])).2
      (by decide) (by decide)).1 [[1, 2], [3, 4], [5, 6]] rfl).mpr (by decide)
  · exact ((C7_newMatrix_contract 2 3 none).2 (by decide) (by decide)).2 rfl

/-- Claim C8: Exponentiate fails with InvalidPowerError for every power at
most 0, before any multiplication is attempted. -/
theorem C8_invalid_power (A : Matrix) (p : Int) (hp : p ≤ 0) :
    Exponentiate A p = .error .invalidPowerError := by
  unfold Exponentiate
  rw [if_pos hp]

/-- Witness for C8 at powers 0 and -1. -/
theorem C8_witness :
    Exponentiate ⟨1, 1, [[5]]⟩ 0 = .error .invalidPowerError ∧
    Exponentiate ⟨1, 1, [[5]]⟩ (-1) = .error .invalidPowerError :=
  ⟨C8_invalid_power ⟨1, 1, [[5]]⟩ 0 (by decide),
   C8_invalid_power ⟨1, 1, [[5]]⟩ (-1) (by decide)⟩

/-- Claim C9 is refuted by the code: main computes BOTH matrixRows and
matrixColumns as len(matrixElements), so the non-square warning branch can
never fire for any table, and the non-square 2-by-3 table
[[1,2,3],[4,5,6]] is not fed through: NewMatrix rejects it with a hard
ShapeMismatchError (first-row length 3 against columns 2). -/
theorem C9_codebug_loader :
    (∀ t : List (List Int), loaderWarnsNonSquare t = false) ∧
    loadMatrix [[1, 2, 3], [4, 5, 6]] = .error .shapeMismatchError ∧
    ([[1, 2, 3], [4, 5, 6]] : List (List Int)).length = 2 ∧
    (([[1, 2, 3], [4, 5, 6]] : List (List Int)).headD []).length = 3 := by
  refine ⟨?_, by decide, by decide, by decide⟩
  intro t
  simp [loaderWarnsNonSquare, loaderRows, loaderColumns]

/-- Claim C10: for square n-by-n well-formed operands and any power at
least 1, both Multiply and Exponentiate succeed and their results satisfy
the Matrix invariant: declared dimensions n and a grid of exactly n rows
of n entries. -/
theorem C10_shape_invariant (n : Nat) (A B : Matrix) (p : Int)
    (hn : 0 < n) (hA : SquareWF A n) (hB : SquareWF B n) (hp : 1 ≤ p) :
    (∃ C, Multiply A B = .ok C ∧ SquareWF C n) ∧
    (∃ D, Exponentiate A p = .ok D ∧ SquareWF D n) := by
  obtain ⟨C, h1, h2, -, -⟩ := Multiply_spec n A B hn hA hB
  obtain ⟨D, h3, h4⟩ := Exponentiate_spec n A p hn hA hp
  exact ⟨⟨C, h1, h2⟩, ⟨D, h3, h4⟩⟩

/-- Witness for C10 at 2-by-2 operands and power 3. -/
theorem C10_witness :
    (∃ C, Multiply ⟨2, 2, [[1, 1], [0, 1]]⟩ ⟨2, 2, [[2, 0], [1, 1]]⟩ = .ok C ∧
      SquareWF C 2) ∧
    (∃ D, Exponentiate ⟨2, 2, [[1, 1], [0, 1]]⟩ 3 = .ok D ∧ SquareWF D 2) :=
  C10_shape_invariant 2 ⟨2, 2, [[1, 1], [0, 1]]⟩ ⟨2, 2, [[2, 0], [1, 1]]⟩ 3
    (by decide) (by decide) (by decide) (by decide)

end GoMatrix
